import Mathlib

/-!
# Verification of the integrity-audit engine (`integrity_audit.py`)

A shallow embedding of the audit engine of the Brazelton-Lab `system`
repository, together with proofs about the behaviour that the design
document ascribes to it.

The embedding mirrors the source:

* `pySplit` / `pyStrip` model Python's `str.split()` / `str.strip()`.
* `dictGet` / `dictSet` / `dictDel` model Python `dict` operations on an
  association list (insertion order retained; `dictDel` models the
  `KeyError` raised when the key is absent).
* `parseManifestLines` models the manifest-reading loop of
  `analyze_checksums` (`checksums[line[-1]] = line[0]`).
* `auditFiles` / `initFiles` / `reconcileMap` / `processDir` /
  `analyzeWorker` model `analyze_checksums`.
* `calcOne` / `calcWorker` model `checksum_calculator`.
* `encUnicodeEscape`, `anchorLead`, `anchorEnd`, `subSingleStar`,
  `subDoubleStar`, `subQmark`, `generateRsyncRegex` model
  `RsyncRegexes.generate_rsync_regexes`; `parseRegexGo`/`matchSeq` give an
  executable semantics for the regex strings that translation produces
  (`re.search` / `re.compile`), and `excludeFn` models
  `RsyncRegexes.exclude`.
* `sepCount`, `pjoin`, `walkPath`, `depthSkips`, `dirProduced` model the
  max-depth logic of `main`.
-/

/-- Characters Python's `str.split()` / `str.strip()` treat as whitespace. -/
def isPySpace (c : Char) : Bool :=
  c == ' ' || c == '\t' || c == '\n' || c == '\x0d' || c == '\x0b' || c == '\x0c'

/-- Worker for whitespace splitting: `acc` holds the (reversed) current token. -/
def wsTokensGo : List Char → List Char → List (List Char)
  | acc, [] => if acc.isEmpty then [] else [acc.reverse]
  | acc, c :: cs =>
    if isPySpace c then
      if acc.isEmpty then wsTokensGo [] cs else acc.reverse :: wsTokensGo [] cs
    else wsTokensGo (c :: acc) cs

/-- Python `s.split()`: split on runs of whitespace, dropping empty tokens. -/
def pySplit (s : String) : List String :=
  (wsTokensGo [] s.toList).map String.mk

/-- Python `s.strip()`: drop leading and trailing whitespace. -/
def pyStrip (s : String) : String :=
  String.mk (((s.toList.dropWhile isPySpace).reverse.dropWhile isPySpace).reverse)

/-- Python `m[k]` lookup (as an `Option`). -/
def dictGet {α : Type} (m : List (String × α)) (k : String) : Option α :=
  (m.find? (fun p => p.1 == k)).map Prod.snd

/-- Python `k in m`. -/
def dictHasKey {α : Type} (m : List (String × α)) (k : String) : Bool :=
  m.any (fun p => p.1 == k)

/-- Python `m[k] = v`: update in place when present, else append.  (A dict
never holds duplicate keys, so replacing the first occurrence is exact.) -/
def dictSet {α : Type} : List (String × α) → String → α → List (String × α)
  | [], k, v => [(k, v)]
  | p :: rest, k, v =>
    if p.1 == k then (k, v) :: rest else p :: dictSet rest k v

/-- Python `del m[k]`: `none` models the `KeyError` on an absent key. -/
def dictDel {α : Type} : List (String × α) → String →
    Option (List (String × α))
  | [], _ => none
  | p :: rest, k =>
    if p.1 == k then some rest else (dictDel rest k).map (fun m => p :: m)

/-- Python `line[-1]` of a nonempty token list (last element). -/
def lastTok : List String → String
  | [] => ""
  | [x] => x
  | _ :: x :: xs => lastTok (x :: xs)

/-- Exceptions of the reconciliation worker that the code does not catch. -/
inductive PyError
  | keyError (k : String)
  | typeError
  | indexError
deriving DecidableEq

/-- The manifest-reading loop of `analyze_checksums` (lines 543-546):
`line = line.strip().split(); checksums[line[-1]] = line[0]`.  A line with no
tokens makes `line[-1]` raise `IndexError`, modelled by `none`. -/
def parseLinesGo : List String → List (String × String) →
    Option (List (String × String))
  | [], m => some m
  | l :: ls, m =>
    match pySplit (pyStrip l) with
    | [] => none
    | t :: ts => parseLinesGo ls (dictSet m (lastTok (t :: ts)) t)

/-- Parse a manifest file (list of raw lines) into a basename→checksum dict. -/
def parseManifestLines (lines : List String) : Option (List (String × String)) :=
  parseLinesGo lines []

/-- One manifest line as written by `analyze_checksums` (line 634):
`output = value + '  ' + key + os.linesep`.  A `None` value raises an
uncaught `TypeError` (string concatenation with `None`). -/
def renderLine (v : Option String) (k : String) : Except PyError String :=
  match v with
  | none => Except.error PyError.typeError
  | some s => Except.ok (s ++ "  " ++ k ++ "\n")

/-- The manifest-writing loop of `analyze_checksums` (lines 632-635). -/
def renderManifest : List (String × Option String) →
    Except PyError (List String)
  | [] => Except.ok []
  | (k, v) :: rest =>
    match renderLine v k with
    | Except.error e => Except.error e
    | Except.ok line =>
      match renderManifest rest with
      | Except.error e => Except.error e
      | Except.ok ls => Except.ok (line :: ls)

/-- One on-disk directory entry, as seen by `iglob` / `os.path.isfile`. -/
structure DirEntry where
  name : String
  isFile : Bool
deriving DecidableEq

/-- A `File` record reaching Phase 2: basename, checksum computed in Phase 1
(`None` when unset), and whether `os.path.isfile` still holds at
reconciliation time. -/
structure MFile where
  basename : String
  checksum : Option String
  isfileNow : Bool
deriving DecidableEq

/-- A `Directory` record reaching Phase 2 together with the bits of disk
state `analyze_checksums` observes: whether the directory still exists,
whether the manifest can be written, the raw manifest lines (`none` when the
manifest file is absent) and the directory's on-disk entries. -/
structure MDir where
  path : String
  dirExists : Bool
  writable : Bool
  manifestLines : Option (List String)
  entries : List DirEntry
  files : List MFile
deriving DecidableEq

/-- Log events of `analyze_checksums`, one per warning/info/error block. -/
inductive AEvent
  | warnDirMissing (path : String)
  | warnStale (key : String)
  | warnVanished (name : String)
  | warnMismatch (name : String)
  | infoNew (name : String)
  | warnReadOnlySkip (path : String)
  | errorWriteFail (path : String)
deriving DecidableEq

/-- Warning-level events (info and error-level events excluded). -/
def AEvent.isWarning : AEvent → Bool
  | AEvent.warnDirMissing _ => true
  | AEvent.warnStale _ => true
  | AEvent.warnVanished _ => true
  | AEvent.warnMismatch _ => true
  | AEvent.warnReadOnlySkip _ => true
  | AEvent.infoNew _ => false
  | AEvent.errorWriteFail _ => false

/-- Does a name start with a dot (a hidden entry)? -/
def hiddenName (s : String) : Bool :=
  s.toList.head? == some '.'

/-- The `iglob(d.path() + '/*')` basenames: every on-disk entry (files and
directories alike) whose name does not start with a dot — glob's `*` never
matches hidden entries. -/
def globStar (entries : List DirEntry) : List String :=
  (entries.filter (fun e => !hiddenName e.name)).map DirEntry.name

/-- Stale-entry pass of `analyze_checksums` (lines 548-554): warn for every
manifest key that is not among the glob basenames. -/
def staleEvents (m : List (String × String)) (entries : List DirEntry) :
    List AEvent :=
  m.filterMap (fun p =>
    if (globStar entries).contains p.1 then none
    else some (AEvent.warnStale p.1))

/-- Per-file loop of the manifest-exists branch (lines 557-596).  A vanished
file is warned about and its entry deleted (`del` raises `KeyError` when the
basename is not a key); otherwise the computed checksum is compared with the
stored one, mismatches and new files updating the dict. -/
def auditFiles : List MFile → List (String × Option String) →
    Except PyError (List (String × Option String) × List AEvent)
  | [], m => Except.ok (m, [])
  | f :: fs, m =>
    if f.isfileNow then
      match dictGet m f.basename with
      | some v =>
        if f.checksum == v then auditFiles fs m
        else
          match auditFiles fs (dictSet m f.basename f.checksum) with
          | Except.error e => Except.error e
          | Except.ok (mf, evs) =>
            Except.ok (mf, AEvent.warnMismatch f.basename :: evs)
      | none =>
        match auditFiles fs (dictSet m f.basename f.checksum) with
        | Except.error e => Except.error e
        | Except.ok (mf, evs) =>
          Except.ok (mf, AEvent.infoNew f.basename :: evs)
    else
      match dictDel m f.basename with
      | none => Except.error (PyError.keyError f.basename)
      | some m2 =>
        match auditFiles fs m2 with
        | Except.error e => Except.error e
        | Except.ok (mf, evs) =>
          Except.ok (mf, AEvent.warnVanished f.basename :: evs)

/-- Per-file loop of the manifest-absent branch (lines 611-627): vanished
files are warned about and skipped, all others are entered into the dict. -/
def initFiles : List MFile → List (String × Option String) →
    List (String × Option String) × List AEvent
  | [], m => (m, [])
  | f :: fs, m =>
    if f.isfileNow then initFiles fs (dictSet m f.basename f.checksum)
    else
      match initFiles fs m with
      | (mf, evs) => (mf, AEvent.warnVanished f.basename :: evs)

/-- In-memory part of `analyze_checksums` for one directory: parse the
manifest (if present), emit stale warnings, and fold the per-file loop.  The
returned flag records the read-only "skip this directory" `continue`. -/
def reconcileMap (readOnly : Bool) (d : MDir) :
    Except PyError (List (String × Option String) × List AEvent × Bool) :=
  match d.manifestLines with
  | some lines =>
    match parseManifestLines lines with
    | none => Except.error PyError.indexError
    | some m0 =>
      match auditFiles d.files (m0.map (fun p => (p.1, some p.2))) with
      | Except.error e => Except.error e
      | Except.ok (mf, evs) =>
        Except.ok (mf, staleEvents m0 d.entries ++ evs, false)
  | none =>
    if readOnly then
      Except.ok ([], [AEvent.warnReadOnlySkip d.path], true)
    else
      match initFiles d.files [] with
      | (mf, evs) => Except.ok (mf, evs, false)

/-- Result of `analyze_checksums` on one directory: the events it logged,
the final in-memory dict, and the manifest content written (if any). -/
structure DirOutcome where
  events : List AEvent
  finalMap : List (String × Option String)
  written : Option (List String)
deriving DecidableEq

/-- The `analyze_checksums` body for one dequeued, still-existing directory:
reconcile in memory, then write the manifest unless in read-only mode.  An
unwritable directory raises `IOError`, which is caught and logged at error
level (lines 636-639); rendering a `None` checksum raises an uncaught
`TypeError`. -/
def processDir (readOnly : Bool) (d : MDir) : Except PyError DirOutcome :=
  match reconcileMap readOnly d with
  | Except.error e => Except.error e
  | Except.ok (mf, evs, skipped) =>
    if skipped then Except.ok ⟨evs, mf, none⟩
    else if readOnly then Except.ok ⟨evs, mf, none⟩
    else if d.writable then
      match renderManifest mf with
      | Except.error e => Except.error e
      | Except.ok lines => Except.ok ⟨evs, mf, some lines⟩
    else Except.ok ⟨evs ++ [AEvent.errorWriteFail d.path], mf, none⟩

/-- The manifest content written by `processDir`, `none` when nothing was
written (read-only mode, `IOError`, or a crash before the write). -/
def writtenOf (r : Except PyError DirOutcome) : Option (List String) :=
  match r with
  | Except.ok o => o.written
  | Except.error _ => none

/-- Queue items of the reconciliation phase: a directory or the sentinel. -/
inductive AQItem
  | dir (d : MDir)
  | done
deriving DecidableEq

/-- How the reconciliation worker's loop ended: by consuming the sentinel,
by the `return None` taken when a dequeued directory no longer exists
(lines 518-527), or by running out of modelled queue items. -/
inductive WorkerExit
  | gotSentinel
  | earlyReturn (path : String)
  | queueEmpty
deriving DecidableEq

/-- The `while True` loop of `analyze_checksums`: outcomes of the processed
directories, the events logged, and how the loop ended.  Note the vanished-
directory branch executes `return None`, ending the whole worker rather
than continuing with the next queue item. -/
def analyzeWorker (readOnly : Bool) : List AQItem →
    Except PyError (List (String × DirOutcome) × List AEvent × WorkerExit)
  | [] => Except.ok ([], [], WorkerExit.queueEmpty)
  | AQItem.done :: _ => Except.ok ([], [], WorkerExit.gotSentinel)
  | AQItem.dir d :: rest =>
    if d.dirExists then
      match processDir readOnly d with
      | Except.error e => Except.error e
      | Except.ok o =>
        match analyzeWorker readOnly rest with
        | Except.error e => Except.error e
        | Except.ok (os, evs, x) =>
          Except.ok ((d.path, o) :: os, o.events ++ evs, x)
    else
      Except.ok ([], [AEvent.warnDirMissing d.path], WorkerExit.earlyReturn d.path)

/-- Outcome of a digest computation attempt in `checksum_calculator`
(lines 691-713): success, an interrupt/termination signal, or any other
exception. -/
inductive HOutcome
  | hashOk (digest : String)
  | interrupted
  | hashErr (msg : String)
deriving DecidableEq

/-- A `File` record as seen by a Phase-1 worker, together with the disk
observations and the outcome its digest computation would have. -/
structure QFile where
  name : String
  isfileNow : Bool
  readable : Bool
  hash : HOutcome
deriving DecidableEq

/-- Log events of `checksum_calculator`. -/
inductive CEvent
  | warnVanishedC (n : String)
  | warnUnreadableC (n : String)
  | errSuppressed (n : String)
deriving DecidableEq

/-- Queue items of the checksum phase: a file or the sentinel. -/
inductive CQItem
  | file (f : QFile)
  | doneC
deriving DecidableEq

/-- One iteration of `checksum_calculator` (lines 673-713): vanished or
unreadable files are skipped with a warning and the checksum left unset;
`KeyboardInterrupt`/`SystemExit` are re-raised (`Except.error ()`); any
other exception is logged and the checksum explicitly reset to `None`. -/
def calcOne (f : QFile) : Except Unit (Option String × List CEvent) :=
  if !f.isfileNow then Except.ok (none, [CEvent.warnVanishedC f.name])
  else if !f.readable then Except.ok (none, [CEvent.warnUnreadableC f.name])
  else
    match f.hash with
    | HOutcome.hashOk dg => Except.ok (some dg, [])
    | HOutcome.interrupted => Except.error ()
    | HOutcome.hashErr _ => Except.ok (none, [CEvent.errSuppressed f.name])

/-- The `while True` loop of `checksum_calculator`: the resulting checksum
of each file processed, the events logged, and whether the sentinel was
reached.  An interrupt propagates out of the loop. -/
def calcWorker : List CQItem →
    Except Unit (List (String × Option String) × List CEvent × Bool)
  | [] => Except.ok ([], [], false)
  | CQItem.doneC :: _ => Except.ok ([], [], true)
  | CQItem.file f :: rest =>
    match calcOne f with
    | Except.error e => Except.error e
    | Except.ok (c, evs) =>
      match calcWorker rest with
      | Except.error e => Except.error e
      | Except.ok (rs, evs2, b) =>
        Except.ok ((f.name, c) :: rs, evs ++ evs2, b)

/-!
## Rsync pattern translation and regex semantics

`RsyncRegexes.generate_rsync_regexes` turns an rsync-style pattern into a
Python regex string by a chain of textual substitutions; `RsyncRegexes.
exclude` then runs `regex.search` on the candidate path.  The translation
below mirrors each `re.sub` of the source; `parseRegexGo`/`matchSeq` give
an executable semantics for the regex subset the translation emits
(literals, `^`, `$`, `.`, character classes, and the `*`/`?`/`+`
quantifiers on single atoms). -/

/-- Python `pattern.encode('unicode-escape')` on printable-ASCII input: backslashes
are doubled, everything else is unchanged. -/
def encUnicodeEscape (s : String) : String :=
  String.mk (s.toList.foldr
    (fun c acc => if c == '\\' then '\\' :: '\\' :: acc else c :: acc) [])

/-- Line 213: `if pattern[0] == os.path.sep: pattern = '^' + pattern`. -/
def anchorLead (l : List Char) : List Char :=
  match l with
  | '/' :: _ => '^' :: l
  | _ => l

/-- Line 221: `re.sub(os.path.sep + '\$?$', '', pattern)`, removing one
trailing `/` or `/$`. -/
def stripTrailSepDollar (l : List Char) : List Char :=
  match l.reverse with
  | '$' :: '/' :: rest => rest.reverse
  | '/' :: rest => rest.reverse
  | _ => l

/-- Whether the list contains two adjacent stars (`'**' in temp`). -/
def hasDoubleStar : List Char → Bool
  | '*' :: '*' :: _ => true
  | _ :: rest => hasDoubleStar rest
  | [] => false

/-- Lines 221-223: append `$` when the stripped pattern has no `**` and no
path separator. -/
def anchorEnd (p : List Char) : List Char :=
  let temp := stripTrailSepDollar p
  if hasDoubleStar temp || temp.contains '/' then p else p ++ ['$']

/-- Lines 228-229: `re.sub(r'(?<!\\)(?<!\*)\*(?!\*)', '[^/]*', pattern)`:
replace each `*` not flanked by `*` and not preceded by `\`.  The `prev`
argument is the previous character of the string being scanned. -/
def subSingleStar : Option Char → List Char → List Char
  | _, [] => []
  | prev, c :: rest =>
    if c == '*' && !(prev == some '\\') && !(prev == some '*')
        && !(rest.head? == some '*') then
      '[' :: '^' :: '/' :: ']' :: '*' :: subSingleStar (some '*') rest
    else c :: subSingleStar (some c) rest

/-- Line 233: `re.sub(r'\*\*', '.*', pattern)`. -/
def subDoubleStar : List Char → List Char
  | '*' :: '*' :: rest => '.' :: '*' :: subDoubleStar rest
  | c :: rest => c :: subDoubleStar rest
  | [] => []

/-- Lines 238-239: `re.sub(r'(?<!\\)\?', '[^/]?', pattern)`: note the
replacement `[^/]?` makes the character optional (zero or one). -/
def subQmark : Option Char → List Char → List Char
  | _, [] => []
  | prev, c :: rest =>
    if c == '?' && !(prev == some '\\') then
      '[' :: '^' :: '/' :: ']' :: '?' :: subQmark (some '?') rest
    else c :: subQmark (some c) rest

/-- The `RsyncRegexes.generate_rsync_regexes` body for one pattern: the regex string
produced.  An empty pattern makes `pattern[0]` raise `IndexError` (`none`). -/
def generateRsyncRegex (pattern : String) : Option String :=
  match (encUnicodeEscape pattern).toList with
  | [] => none
  | c :: cs =>
    let p := anchorLead (c :: cs)
    let p := anchorEnd p
    let p := subSingleStar none p
    let p := subDoubleStar p
    let p := subQmark none p
    some (String.mk p)

/-- Atoms of the regex subset produced by the translation. -/
inductive RAtom
  | lit (c : Char)
  | anyc
  | cls (neg : Bool) (ranges : List (Char × Char))
deriving DecidableEq

/-- Elements of a parsed regex: atoms, quantified atoms, and anchors. -/
inductive RElem
  | atom (a : RAtom)
  | star (a : RAtom)
  | opt (a : RAtom)
  | caret
  | dollar
deriving DecidableEq

/-- Does one character match an atom?  `.` does not match a newline. -/
def matchAtom : RAtom → Char → Bool
  | RAtom.lit c, x => x == c
  | RAtom.anyc, x => !(x == '\n')
  | RAtom.cls neg rs, x =>
    let m := rs.any (fun p => p.1 ≤ x && x ≤ p.2)
    if neg then !m else m

/-- Items of a character class, up to the closing `]`.  Returns the parsed
ranges and the remaining input. -/
def parseClsItems : List Char → List (Char × Char) →
    Option (List (Char × Char) × List Char)
  | [], _ => none
  | ']' :: r, acc => some (acc.reverse, r)
  | '\\' :: c :: r, acc => parseClsItems r ((c, c) :: acc)
  | c :: '-' :: ']' :: r, acc => some (((c, c) :: acc).reverse ++ [('-', '-')], r)
  | c :: '-' :: d :: r, acc => parseClsItems r ((c, d) :: acc)
  | c :: r, acc => parseClsItems r ((c, c) :: acc)

/-- A character class after the opening `[`. -/
def parseClsBody (l : List Char) : Option (RAtom × List Char) :=
  match l with
  | '^' :: r =>
    match parseClsItems r [] with
    | none => none
    | some (items, rest) => some (RAtom.cls true items, rest)
  | r =>
    match parseClsItems r [] with
    | none => none
    | some (items, rest) => some (RAtom.cls false items, rest)

/-- Attach a following quantifier to an atom; `+` expands to atom-then-star. -/
def quantSplit (a : RAtom) : List Char → List RElem × List Char
  | '*' :: r => ([RElem.star a], r)
  | '?' :: r => ([RElem.opt a], r)
  | '+' :: r => ([RElem.atom a, RElem.star a], r)
  | r => ([RElem.atom a], r)

/-- Parse a regex string of the translation's output subset (fuelled). -/
def parseRegexGo : Nat → List Char → Option (List RElem)
  | 0, _ => none
  | _ + 1, [] => some []
  | fuel + 1, c :: rest =>
    if c == '^' then (parseRegexGo fuel rest).map (fun es => RElem.caret :: es)
    else if c == '$' then
      (parseRegexGo fuel rest).map (fun es => RElem.dollar :: es)
    else if c == '\\' then
      match rest with
      | [] => none
      | c2 :: rest2 =>
        if c2.isAlphanum then none
        else
          match quantSplit (RAtom.lit c2) rest2 with
          | (es, r) => (parseRegexGo fuel r).map (fun more => es ++ more)
    else if c == '[' then
      match parseClsBody rest with
      | none => none
      | some (a, r) =>
        match quantSplit a r with
        | (es, r2) => (parseRegexGo fuel r2).map (fun more => es ++ more)
    else if c == '*' || c == '+' || c == '?' then none
    else
      match quantSplit (if c == '.' then RAtom.anyc else RAtom.lit c) rest with
      | (es, r) => (parseRegexGo fuel r).map (fun more => es ++ more)

/-- Match the element list against `cs` starting at position `i` (fuelled
backtracking matcher; quantifier greediness is irrelevant for the boolean
result). -/
def matchSeq : Nat → List RElem → List Char → Nat → Bool
  | 0, _, _, _ => false
  | _ + 1, [], _, _ => true
  | fuel + 1, RElem.caret :: es, cs, i => i == 0 && matchSeq fuel es cs i
  | fuel + 1, RElem.dollar :: es, cs, i =>
    i == cs.length && matchSeq fuel es cs i
  | fuel + 1, RElem.atom a :: es, cs, i =>
    decide (i < cs.length) && matchAtom a (cs.getD i ' ')
      && matchSeq fuel es cs (i + 1)
  | fuel + 1, RElem.opt a :: es, cs, i =>
    matchSeq fuel es cs i
      || (decide (i < cs.length) && matchAtom a (cs.getD i ' ')
          && matchSeq fuel es cs (i + 1))
  | fuel + 1, RElem.star a :: es, cs, i =>
    matchSeq fuel es cs i
      || (decide (i < cs.length) && matchAtom a (cs.getD i ' ')
          && matchSeq fuel (RElem.star a :: es) cs (i + 1))

/-- Python `regex.search(path)`: does the element list match at some position? -/
def reSearch (es : List RElem) (s : String) : Bool :=
  let cs := s.toList
  (List.range (cs.length + 1)).any
    (fun i => matchSeq (cs.length + es.length + 1) es cs i)

/-- A compiled regex: the pattern text (used by `exclude` for the
directory-only check) and its parsed form. -/
structure CompiledRegex where
  pattern : String
  elems : List RElem
deriving DecidableEq

/-- Translate one rsync pattern and compile the resulting regex string. -/
def compilePattern (p : String) : Option CompiledRegex :=
  match generateRsyncRegex p with
  | none => none
  | some s =>
    match parseRegexGo (s.length + 1) s.toList with
    | none => none
    | some es => some ⟨s, es⟩

/-- Instance mode of `RsyncRegexes`. -/
inductive RMode
  | excl
  | incl
deriving DecidableEq

/-- Line 318: `re.sub('\$?$', '', regex.pattern)`, stripping one trailing `$`. -/
def stripOneDollar (s : String) : String :=
  match s.toList.reverse with
  | '$' :: rest => String.mk rest.reverse
  | _ => s

/-- Does the string end with the path separator? (`temp[-1] == os.path.sep`) -/
def lastIsSep (s : String) : Bool :=
  s.toList.getLastD ' ' == '/'

/-- Line 319: a rule whose (dollar-stripped) pattern ends in the path
separator only ever matches absolute non-link directories. -/
def regexDirOnly (r : CompiledRegex) : Bool :=
  lastIsSep (stripOneDollar r.pattern)

/-- The rule loop of `RsyncRegexes.exclude` (lines 314-333): skip
directory-only rules for non-directories; the first rule whose regex
matches decides by mode; falling off the end decides by mode. -/
def excludeGo (mode : RMode) : List CompiledRegex → Bool → String → Bool
  | [], _, _ => mode == RMode.incl
  | r :: rest, isAbsDir, p =>
    if regexDirOnly r && !isAbsDir then excludeGo mode rest isAbsDir p
    else if reSearch r.elems p then mode == RMode.excl
    else excludeGo mode rest isAbsDir p

/-- Python slicing `path[n:]`. -/
def sliceFrom (s : String) (n : Nat) : String :=
  String.mk (s.toList.drop n)

/-- The method `RsyncRegexes.exclude(path, base)`: strip the base prefix
(`path[len(base):]`) and run the rule loop. -/
def excludeFn (mode : RMode) (rs : List CompiledRegex) (isAbsDir : Bool)
    (base : Option String) (path : String) : Bool :=
  excludeGo mode rs isAbsDir
    (match base with
     | some b => sliceFrom path b.toList.length
     | none => path)

/-- Modelled from the spec: a rule "matches" a candidate when its regex
matches and, for rules ending in a path separator, the candidate is a
directory ("A pattern ending in a literal path separator only ever matches
directories"). -/
def ruleApplies (r : CompiledRegex) (isAbsDir : Bool) (p : String) : Bool :=
  (!(regexDirOnly r) || isAbsDir) && reSearch r.elems p

/-- Modelled from the spec's matching contract: strip the base prefix, find
the first matching rule; a match decides by mode (`exclude` mode: match ⇒
excluded; `include` mode: match ⇒ included); no match means included in
`exclude` mode and excluded in `include` mode. -/
def excludeSpecFn (mode : RMode) (rs : List CompiledRegex) (isAbsDir : Bool)
    (base : Option String) (path : String) : Bool :=
  let p :=
    match base with
    | some b => sliceFrom path b.toList.length
    | none => path
  match rs.find? (fun r => ruleApplies r isAbsDir p) with
  | some _ => mode == RMode.excl
  | none => mode == RMode.incl

/-!
## Depth limiting (`main`, lines 896-928)
-/

/-- Python `s.count(os.path.sep)`. -/
def sepCount (s : String) : Nat :=
  s.toList.count '/'

/-- Python `os.path.join(a, b)` for a relative `b`. -/
def pjoin (a b : String) : String :=
  if lastIsSep a then a ++ b else a ++ "/" ++ b

/-- The normalized path `os.walk` hands to the loop for the directory at
component list `comps` below the audit root. -/
def walkPath (root : String) (comps : List String) : String :=
  comps.foldl pjoin root

/-- Lines 897-900: `max_depth = args.max_depth + abs_dir.count(os.path.sep)`
when `args.max_depth > 0`, else `-1`. -/
def maxDepthAdj (k : ℤ) (root : String) : ℤ :=
  if k > 0 then k + (sepCount root : ℤ) else -1

/-- Line 923: `norm_root.count(os.path.sep) > max_depth > -1`. -/
def depthSkips (k : ℤ) (root dirPath : String) : Bool :=
  decide ((sepCount dirPath : ℤ) > maxDepthAdj k root)
    && decide (maxDepthAdj k root > -1)

/-- A directory reached by the traversal loop, with the environment checks
`main` performs before creating a `Directory` record. -/
structure WalkDir where
  comps : List String
  dirExists2 : Bool
  readable : Bool
  hasManifest : Bool
deriving DecidableEq

/-- Whether `main`'s loop creates a `Directory` record for this directory:
it must still exist, pass the depth gate, be readable, and (in read-only
mode) contain a manifest file.  Unwritable directories only get a warning
and are still processed (lines 947-954). -/
def dirProduced (k : ℤ) (readOnly : Bool) (root : String) (w : WalkDir) : Bool :=
  w.dirExists2 && !(depthSkips k root (walkPath root w.comps)) && w.readable
    && (!readOnly || w.hasManifest)

/-!
## Derived definitions used by the theorems
-/

/-- The keys of an association-list dict, in order. -/
def keysOf {α : Type} (m : List (String × α)) : List String :=
  m.map Prod.fst

/-- A string that survives the manifest line format: nonempty and free of
whitespace (so `split()` returns it unbroken). -/
def cleanTok (s : String) : Bool :=
  !s.toList.isEmpty && s.toList.all (fun c => !isPySpace c)

/-- All keys and values of a plain dict are clean tokens. -/
def cleanEntries (m : List (String × String)) : Prop :=
  ∀ p ∈ m, cleanTok p.1 = true ∧ cleanTok p.2 = true

/-- View a plain (all-checksums-set) dict as the reconciler's dict type. -/
def liftMap (m : List (String × String)) : List (String × Option String) :=
  m.map (fun p => (p.1, some p.2))

/-- The manifest lines written for a plain dict. -/
def renderPlain (m : List (String × String)) : List String :=
  m.map (fun p => p.2 ++ "  " ++ p.1 ++ "\n")

/-!
## Concrete instances used by counterexamples and witnesses
-/

/-- C1 counterexample, first run: a directory whose manifest carries a stale
entry (`ghost`) next to a live file `a`. -/
def c1d1 : MDir :=
  ⟨"/c1", true, true, some ["x  ghost"],
    [⟨"a", true⟩, ⟨"sha512sums", true⟩],
    [⟨"a", some "ca", true⟩]⟩

/-- The manifest content the first C1 run writes. -/
def c1L : List String := ["x  ghost\n", "ca  a\n"]

/-- C1 counterexample, second run: same tree, manifest now the first run's
output. -/
def c1d2 : MDir := { c1d1 with manifestLines := some c1L }

/-- C1 witness instance: a clean directory whose manifest already matches. -/
def c1w : MDir :=
  ⟨"/w1", true, true, some ["cb  b"], [⟨"b", true⟩],
    [⟨"b", some "cb", true⟩]⟩

/-- C5 counterexample: manifest file present (empty), one file whose
checksum stayed unset after Phase 1. -/
def c5d : MDir := ⟨"/c5", true, true, some [], [], [⟨"b", none, true⟩]⟩

/-- C5 witness instance: first audit of a directory holding one file whose
checksum stayed unset. -/
def c5dw : MDir := ⟨"/w5", true, true, none, [], [⟨"b", none, true⟩]⟩

/-- C5 witness instance: a readable file whose digest computation fails. -/
def c5fErr : QFile := ⟨"f", true, true, HOutcome.hashErr "boom"⟩

/-- C5 witness instance: a file whose digest computation is interrupted. -/
def c5fInt : QFile := ⟨"g", true, true, HOutcome.interrupted⟩

/-- C6 failing input: a dequeued directory that no longer exists. -/
def c6dM : MDir := ⟨"/gone", false, true, none, [], []⟩

/-- C6 failing input: a live directory queued behind the vanished one. -/
def c6dL : MDir := ⟨"/live", true, true, none, [], []⟩

/-- C6 failing input: a vanished file whose basename is not a manifest key,
so `del checksums[file_name]` raises `KeyError`. -/
def c6dK : MDir :=
  ⟨"/k", true, true, some ["c  a"], [⟨"a", true⟩],
    [⟨"gone", some "x", false⟩]⟩

/-- C7 witness instance: a manifest-less directory in read-only mode. -/
def c7d0 : MDir := ⟨"/p", true, true, none, [], []⟩

/-- C7 witness instance: a traversal directory with no manifest file. -/
def c7w0 : WalkDir := ⟨["s"], true, true, true⟩

/-- C8 counterexample instance: below the filesystem root `/`, the
directory `a/b` sits two component levels deep. -/
def c8deep : WalkDir := ⟨["a", "b"], true, true, true⟩

/-- C9 counterexample: a hidden file present on disk and tracked by the
manifest. -/
def c9d : MDir :=
  ⟨"/h", true, true, some ["c  .foo"], [⟨".foo", true⟩],
    [⟨".foo", some "c", true⟩]⟩

/-- C10 witness instance: a directory whose manifest contains a
whitespace-only line. -/
def c10d : MDir := ⟨"/m", true, true, some ["ab  cd", " "], [], []⟩

/-!
## Helper lemmas: dictionaries
-/

theorem dictHasKey_eq_false_iff {α : Type} (m : List (String × α)) (k : String) :
    dictHasKey m k = false ↔ k ∉ keysOf m := by
  induction m with
  | nil => simp [dictHasKey, keysOf]
  | cons p rest ih =>
    simp [dictHasKey, keysOf, List.any_cons] at ih ⊢
    constructor
    · rintro ⟨h1, h2⟩
      exact ⟨fun he => h1 (by simp [he]), (ih.mp (by simpa [dictHasKey, keysOf] using h2))⟩
    · rintro ⟨h1, h2⟩
      refine ⟨fun he => h1 (by simpa using he.symm), ?_⟩
      simpa [dictHasKey, keysOf] using ih.mpr h2

theorem dictGet_cons {α : Type} (p : String × α) (rest : List (String × α))
    (k : String) :
    dictGet (p :: rest) k = if p.1 = k then some p.2 else dictGet rest k := by
  by_cases h : p.1 = k <;> simp [dictGet, List.find?_cons, h]

theorem dictGet_set_self {α : Type} (m : List (String × α)) (k : String) (v : α) :
    dictGet (dictSet m k v) k = some v := by
  induction m with
  | nil =>
    rw [show dictSet ([] : List (String × α)) k v = [(k, v)] from rfl,
      dictGet_cons]
    simp
  | cons p rest ih =>
    by_cases h : p.1 = k
    · rw [show dictSet (p :: rest) k v = (k, v) :: rest by simp [dictSet, h],
        dictGet_cons]
      simp
    · rw [show dictSet (p :: rest) k v = p :: dictSet rest k v by
        simp [dictSet, h], dictGet_cons]
      simp [h, ih]

theorem dictGet_set_ne {α : Type} (m : List (String × α)) (k k' : String)
    (v : α) (h : k' ≠ k) : dictGet (dictSet m k v) k' = dictGet m k' := by
  have hkk : ¬(k = k') := fun he => h he.symm
  induction m with
  | nil =>
    rw [show dictSet ([] : List (String × α)) k v = [(k, v)] from rfl,
      dictGet_cons]
    simp [dictGet, hkk]
  | cons p rest ih =>
    by_cases hp : p.1 = k
    · rw [show dictSet (p :: rest) k v = (k, v) :: rest by simp [dictSet, hp],
        dictGet_cons, dictGet_cons]
      simp [hp, hkk]
    · rw [show dictSet (p :: rest) k v = p :: dictSet rest k v by
        simp [dictSet, hp], dictGet_cons, dictGet_cons]
      by_cases hp' : p.1 = k' <;> simp [hp', ih]

theorem mem_dictSet {α : Type} (m : List (String × α)) (k : String) (v : α)
    (p : String × α) (hp : p ∈ dictSet m k v) : p ∈ m ∨ p = (k, v) := by
  induction m with
  | nil => simpa [dictSet] using hp
  | cons q rest ih =>
    by_cases h : q.1 = k
    · simp [dictSet, h] at hp
      rcases hp with hp | hp
      · exact Or.inr hp
      · exact Or.inl (List.mem_cons_of_mem _ hp)
    · simp [dictSet, h] at hp
      rcases hp with hp | hp
      · exact Or.inl (by simp [hp])
      · rcases ih hp with h2 | h2
        · exact Or.inl (List.mem_cons_of_mem _ h2)
        · exact Or.inr h2

theorem keysOf_dictSet {α : Type} (m : List (String × α)) (k : String) (v : α) :
    keysOf (dictSet m k v) =
      if dictHasKey m k then keysOf m else keysOf m ++ [k] := by
  induction m with
  | nil => simp [dictSet, dictHasKey, keysOf]
  | cons p rest ih =>
    by_cases h : p.1 = k
    · simp [dictSet, dictHasKey, List.any_cons, keysOf, h]
    · have hne : (p.1 == k) = false := by simpa using h
      have hck : dictHasKey (p :: rest) k = dictHasKey rest k := by
        simp [dictHasKey, List.any_cons, hne]
      have hks : keysOf (dictSet (p :: rest) k v) =
          p.1 :: keysOf (dictSet rest k v) := by
        simp [dictSet, hne, keysOf]
      rw [hks, ih, hck]
      by_cases h2 : dictHasKey rest k <;> simp [h2, keysOf]

theorem nodup_keysOf_dictSet {α : Type} (m : List (String × α)) (k : String)
    (v : α) (h : (keysOf m).Nodup) : (keysOf (dictSet m k v)).Nodup := by
  rw [keysOf_dictSet]
  by_cases hk : dictHasKey m k
  · simpa [hk] using h
  · have hnot : k ∉ keysOf m :=
      (dictHasKey_eq_false_iff m k).mp (by simpa using hk)
    simp only [hk, Bool.false_eq_true, if_false]
    rw [List.nodup_append]
    exact ⟨h, List.nodup_singleton k,
      fun a ha ha2 => hnot (by simpa using (List.mem_singleton.mp ha2) ▸ ha)⟩

theorem dictSet_of_not_mem {α : Type} (m : List (String × α)) (k : String)
    (v : α) (h : k ∉ keysOf m) : dictSet m k v = m ++ [(k, v)] := by
  induction m with
  | nil => simp [dictSet]
  | cons p rest ih =>
    rw [show keysOf (p :: rest) = p.1 :: keysOf rest from rfl, List.mem_cons] at h
    push_neg at h
    have h1 : ¬p.1 = k := fun he => h.1 he.symm
    simp [dictSet, h1, ih h.2]

/-!
## Helper lemmas: Python string splitting
-/

theorem toList_strAppend (a b : String) :
    (a ++ b).toList = a.toList ++ b.toList := by
  cases a
  cases b
  rfl

theorem mk_toList (s : String) : String.mk s.toList = s := by
  cases s
  rfl

theorem wsTokensGo_clean (l : List Char) :
    ∀ acc, (∀ c ∈ acc, isPySpace c = false) →
      ∀ t ∈ wsTokensGo acc l, t ≠ [] ∧ ∀ c ∈ t, isPySpace c = false := by
  induction l with
  | nil =>
    intro acc hacc t ht
    by_cases h : acc.isEmpty
    · simp [wsTokensGo, h] at ht
    · simp [wsTokensGo, h] at ht
      subst ht
      refine ⟨by simpa using (by simpa [List.isEmpty_iff] using h), ?_⟩
      intro c hc
      exact hacc c (List.mem_reverse.mp hc)
  | cons c cs ih =>
    intro acc hacc t ht
    by_cases hsp : isPySpace c
    · by_cases h : acc.isEmpty
      · simp only [wsTokensGo, hsp, h, if_true] at ht
        exact ih [] (by simp) t ht
      · simp only [wsTokensGo, hsp, h, if_true, if_false] at ht
        rcases List.mem_cons.mp ht with ht | ht
        · subst ht
          refine ⟨by simpa using (by simpa [List.isEmpty_iff] using h), ?_⟩
          intro d hd
          exact hacc d (List.mem_reverse.mp hd)
        · exact ih [] (by simp) t ht
    · simp only [wsTokensGo, hsp, Bool.false_eq_true, if_false] at ht
      refine ih (c :: acc) ?_ t ht
      intro d hd
      rcases List.mem_cons.mp hd with hd | hd
      · subst hd
        simpa using hsp
      · exact hacc d hd

theorem pySplit_clean (s : String) : ∀ t ∈ pySplit s, cleanTok t = true := by
  intro t ht
  simp only [pySplit, List.mem_map] at ht
  rcases ht with ⟨tl, htl, rfl⟩
  have h := wsTokensGo_clean s.toList [] (by simp) tl htl
  simp only [cleanTok, Bool.and_eq_true, List.all_eq_true]
  constructor
  · have : (String.mk tl).toList = tl := rfl
    rw [this]
    simpa [List.isEmpty_iff] using h.1
  · intro c hc
    have : (String.mk tl).toList = tl := rfl
    rw [this] at hc
    simpa using h.2 c hc

theorem dropWhile_clean_head (l rest : List Char) (hne : l ≠ [])
    (hcl : ∀ c ∈ l, isPySpace c = false) :
    List.dropWhile isPySpace (l ++ rest) = l ++ rest := by
  cases l with
  | nil => exact absurd rfl hne
  | cons c cs =>
    have : isPySpace c = false := hcl c (by simp)
    simp [List.dropWhile_cons, this]

theorem wsTokensGo_through (t : List Char) :
    ∀ acc rest, (∀ c ∈ t, isPySpace c = false) →
      wsTokensGo acc (t ++ rest) = wsTokensGo (t.reverse ++ acc) rest := by
  induction t with
  | nil => intro acc rest _; simp
  | cons c cs ih =>
    intro acc rest hcl
    have hc : isPySpace c = false := hcl c (by simp)
    simp only [List.cons_append, wsTokensGo, hc, Bool.false_eq_true, if_false]
    simpa using ih (c :: acc) rest (fun d hd => hcl d (by simp [hd]))

theorem wsTokensGo_acc_nil (acc : List Char) (h : acc ≠ []) :
    wsTokensGo acc [] = [acc.reverse] := by
  cases acc with
  | nil => exact absurd rfl h
  | cons a l => simp [wsTokensGo]

theorem wsTokensGo_space_cons (acc : List Char) (c : Char) (rest : List Char)
    (hsp : isPySpace c = true) (h : acc ≠ []) :
    wsTokensGo acc (c :: rest) = acc.reverse :: wsTokensGo [] rest := by
  cases acc with
  | nil => exact absurd rfl h
  | cons a l => simp [wsTokensGo, hsp]

theorem wsTokensGo_space_nil (c : Char) (rest : List Char)
    (hsp : isPySpace c = true) :
    wsTokensGo [] (c :: rest) = wsTokensGo [] rest := by
  simp [wsTokensGo, hsp]

theorem cleanTok_toList_ne (s : String) (h : cleanTok s = true) :
    s.toList ≠ [] := by
  simp only [cleanTok, Bool.and_eq_true] at h
  simpa [List.isEmpty_iff] using h.1

theorem cleanTok_chars (s : String) (h : cleanTok s = true) :
    ∀ c ∈ s.toList, isPySpace c = false := by
  simp only [cleanTok, Bool.and_eq_true, List.all_eq_true] at h
  intro c hc
  simpa using h.2 c hc

theorem lineSplit (v k : String) (hv : cleanTok v = true)
    (hk : cleanTok k = true) :
    pySplit (pyStrip (v ++ "  " ++ k ++ "\n")) = [v, k] := by
  have hvl := cleanTok_toList_ne v hv
  have hkl := cleanTok_toList_ne k hk
  have hvc := cleanTok_chars v hv
  have hkc := cleanTok_chars k hk
  have htl : (v ++ "  " ++ k ++ "\n").toList
      = v.toList ++ (' ' :: ' ' :: (k.toList ++ ['\n'])) := by
    rw [toList_strAppend, toList_strAppend, toList_strAppend]
    simp
  have hstrip : pyStrip (v ++ "  " ++ k ++ "\n")
      = String.mk (v.toList ++ (' ' :: ' ' :: k.toList)) := by
    unfold pyStrip
    rw [htl]
    rw [dropWhile_clean_head v.toList _ hvl hvc]
    have hrev : (v.toList ++ (' ' :: ' ' :: (k.toList ++ ['\n']))).reverse
        = '\n' :: (k.toList.reverse ++ (' ' :: ' ' :: v.toList.reverse)) := by
      simp
    rw [hrev]
    have hsp : isPySpace '\n' = true := rfl
    rw [List.dropWhile_cons, if_pos hsp]
    rw [dropWhile_clean_head k.toList.reverse _
      (by simpa using hkl) (fun c hc => hkc c (List.mem_reverse.mp hc))]
    simp
  rw [hstrip]
  unfold pySplit
  have hmk : (String.mk (v.toList ++ (' ' :: ' ' :: k.toList))).toList
      = v.toList ++ (' ' :: ' ' :: k.toList) := rfl
  rw [hmk]
  rw [wsTokensGo_through v.toList [] (' ' :: ' ' :: k.toList) hvc]
  rw [List.append_nil]
  rw [wsTokensGo_space_cons _ ' ' _ rfl (by simpa using hvl)]
  rw [wsTokensGo_space_nil ' ' _ rfl]
  have hk2 : wsTokensGo [] k.toList = [k.toList] := by
    have h1 := wsTokensGo_through k.toList [] [] hkc
    simp only [List.append_nil] at h1
    rw [h1, wsTokensGo_acc_nil _ (by simpa using hkl)]
    simp
  rw [hk2]
  simp [mk_toList]

theorem lastTok_mem (ts : List String) (h : ts ≠ []) : lastTok ts ∈ ts := by
  induction ts with
  | nil => exact absurd rfl h
  | cons a rest ih =>
    cases rest with
    | nil => simp [lastTok]
    | cons b bs =>
      have := ih (by simp)
      simp only [lastTok]
      exact List.mem_cons_of_mem a this

/-!
## Helper lemmas: manifest parsing and rendering
-/

theorem parseLinesGo_clean (lines : List String) :
    ∀ acc m, cleanEntries acc → parseLinesGo lines acc = some m →
      cleanEntries m := by
  induction lines with
  | nil =>
    intro acc m hacc h
    simp only [parseLinesGo, Option.some.injEq] at h
    rw [← h]
    exact hacc
  | cons l ls ih =>
    intro acc m hacc h
    simp only [parseLinesGo] at h
    cases hts : pySplit (pyStrip l) with
    | nil => rw [hts] at h; simp at h
    | cons t ts =>
      rw [hts] at h
      have hkey : cleanTok (lastTok (t :: ts)) = true := by
        refine pySplit_clean (pyStrip l) _ ?_
        rw [hts]
        exact lastTok_mem _ (by simp)
      have ht : cleanTok t = true := by
        refine pySplit_clean (pyStrip l) _ ?_
        rw [hts]
        simp
      refine ih _ m ?_ h
      intro p hp
      rcases mem_dictSet _ _ _ p hp with hp | hp
      · exact hacc p hp
      · rw [hp]
        exact ⟨hkey, ht⟩

theorem parseLinesGo_nodup (lines : List String) :
    ∀ acc m, (keysOf acc).Nodup → parseLinesGo lines acc = some m →
      (keysOf m).Nodup := by
  induction lines with
  | nil =>
    intro acc m hacc h
    simp only [parseLinesGo, Option.some.injEq] at h
    rw [← h]
    exact hacc
  | cons l ls ih =>
    intro acc m hacc h
    simp only [parseLinesGo] at h
    cases hts : pySplit (pyStrip l) with
    | nil => rw [hts] at h; simp at h
    | cons t ts =>
      rw [hts] at h
      exact ih _ m (nodup_keysOf_dictSet _ _ _ hacc) h

theorem parseLinesGo_blank (lines : List String) :
    ∀ acc l, l ∈ lines → pySplit (pyStrip l) = [] →
      parseLinesGo lines acc = none := by
  induction lines with
  | nil => intro acc l hl; simp at hl
  | cons l0 ls ih =>
    intro acc l hl hblank
    rcases List.mem_cons.mp hl with hl | hl
    · subst hl
      simp only [parseLinesGo]
      rw [hblank]
    · simp only [parseLinesGo]
      cases hts : pySplit (pyStrip l0) with
      | nil => rfl
      | cons t ts => exact ih _ l hl hblank

theorem parseLinesGo_renderPlain (m : List (String × String)) :
    ∀ acc, cleanEntries m → (keysOf (acc ++ m)).Nodup →
      parseLinesGo (renderPlain m) acc = some (acc ++ m) := by
  induction m with
  | nil => intro acc _ _; simp [renderPlain, parseLinesGo]
  | cons p rest ih =>
    intro acc hcl hnd
    have hp := hcl p (by simp)
    have hline : renderPlain (p :: rest)
        = (p.2 ++ "  " ++ p.1 ++ "\n") :: renderPlain rest := by
      simp [renderPlain]
    rw [hline]
    simp only [parseLinesGo]
    rw [lineSplit p.2 p.1 hp.2 hp.1]
    show parseLinesGo (renderPlain rest) (dictSet acc (lastTok [p.2, p.1]) p.2)
      = some (acc ++ p :: rest)
    have hlast : lastTok [p.2, p.1] = p.1 := rfl
    rw [hlast]
    have hknotin : p.1 ∉ keysOf acc := by
      intro hmem
      have hsplit : keysOf (acc ++ p :: rest)
          = keysOf acc ++ (p.1 :: keysOf rest) := by
        simp [keysOf]
      rw [hsplit] at hnd
      rcases List.nodup_append.mp hnd with ⟨_, _, hdisj⟩
      exact hdisj hmem (by simp)
    rw [dictSet_of_not_mem acc p.1 p.2 hknotin]
    have hre : (acc ++ [(p.1, p.2)]) ++ rest = acc ++ p :: rest := by
      simp
    have hnd2 : (keysOf ((acc ++ [(p.1, p.2)]) ++ rest)).Nodup := by
      rw [hre]
      exact hnd
    have := ih (acc ++ [(p.1, p.2)]) (fun q hq => hcl q (by simp [hq])) hnd2
    rw [this, hre]

theorem renderManifest_ok_inv (mf : List (String × Option String)) :
    ∀ L, renderManifest mf = Except.ok L →
      ∃ m, mf = liftMap m ∧ L = renderPlain m := by
  induction mf with
  | nil =>
    intro L h
    simp only [renderManifest, Except.ok.injEq] at h
    exact ⟨[], by simp [liftMap], by simp [renderPlain, ← h]⟩
  | cons p rest ih =>
    intro L h
    rcases p with ⟨k, v⟩
    cases v with
    | none => simp [renderManifest, renderLine] at h
    | some s =>
      simp only [renderManifest, renderLine] at h
      cases hrest : renderManifest rest with
      | error e => rw [hrest] at h; simp at h
      | ok ls =>
        rw [hrest] at h
        simp only [Except.ok.injEq] at h
        rcases ih ls hrest with ⟨m', hm', hls⟩
        refine ⟨(k, s) :: m', by simp [liftMap, hm'], ?_⟩
        rw [← h, hls]
        simp [renderPlain]

theorem staleEvents_nil (m : List (String × String)) (entries : List DirEntry)
    (h : ∀ k ∈ keysOf m, (globStar entries).contains k = true) :
    staleEvents m entries = [] := by
  unfold staleEvents
  rw [List.filterMap_eq_nil_iff]
  intro p hp
  rw [if_pos (h p.1 (show p.1 ∈ keysOf m from List.mem_map_of_mem Prod.fst hp))]

/-!
## Helper lemmas: the per-file reconciliation loops
-/

theorem auditFiles_noop (fs : List MFile) :
    ∀ m, (∀ f ∈ fs, f.isfileNow = true ∧ dictGet m f.basename = some f.checksum) →
      auditFiles fs m = Except.ok (m, []) := by
  induction fs with
  | nil => intro m _; rfl
  | cons f fs ih =>
    intro m h
    have hf := h f (by simp)
    simp only [auditFiles, hf.1, if_true]
    rw [hf.2]
    simp only [beq_self_eq_true, if_true]
    exact ih m (fun g hg => h g (by simp [hg]))

theorem auditFiles_frame (fs : List MFile) :
    ∀ m mf evs, (∀ f ∈ fs, f.isfileNow = true) →
      auditFiles fs m = Except.ok (mf, evs) →
      ∀ k, k ∉ fs.map MFile.basename → dictGet mf k = dictGet m k := by
  induction fs with
  | nil =>
    intro m mf evs _ h k _
    simp only [auditFiles, Except.ok.injEq, Prod.mk.injEq] at h
    rw [h.1]
  | cons f fs ih =>
    intro m mf evs hex h k hk
    have hf : f.isfileNow = true := hex f (by simp)
    have hex' : ∀ g ∈ fs, g.isfileNow = true := fun g hg => hex g (by simp [hg])
    have hkf : k ≠ f.basename := fun he => hk (by simp [he])
    have hk' : k ∉ fs.map MFile.basename := fun hh => hk (by simp [hh])
    simp only [auditFiles, hf, if_true] at h
    cases hget : dictGet m f.basename with
    | some v =>
      rw [hget] at h
      by_cases heq : f.checksum == v
      · simp only [heq, if_true] at h
        exact ih m mf evs hex' h k hk'
      · simp only [heq, Bool.false_eq_true, if_false] at h
        cases haud : auditFiles fs (dictSet m f.basename f.checksum) with
        | error e => rw [haud] at h; simp at h
        | ok r =>
          rw [haud] at h
          simp only [Except.ok.injEq, Prod.mk.injEq] at h
          rw [← h.1]
          rw [ih _ r.1 r.2 hex' (by rw [haud]) k hk']
          exact dictGet_set_ne m f.basename k f.checksum hkf
    | none =>
      rw [hget] at h
      cases haud : auditFiles fs (dictSet m f.basename f.checksum) with
      | error e => rw [haud] at h; simp at h
      | ok r =>
        rw [haud] at h
        simp only [Except.ok.injEq, Prod.mk.injEq] at h
        rw [← h.1]
        rw [ih _ r.1 r.2 hex' (by rw [haud]) k hk']
        exact dictGet_set_ne m f.basename k f.checksum hkf

theorem auditFiles_values (fs : List MFile) :
    ∀ m mf evs, (∀ f ∈ fs, f.isfileNow = true) →
      (fs.map MFile.basename).Nodup →
      auditFiles fs m = Except.ok (mf, evs) →
      ∀ f ∈ fs, dictGet mf f.basename = some f.checksum := by
  induction fs with
  | nil => intro m mf evs _ _ _ f hf; simp at hf
  | cons f0 fs ih =>
    intro m mf evs hex hnd h f hf
    have hf0 : f0.isfileNow = true := hex f0 (by simp)
    have hex' : ∀ g ∈ fs, g.isfileNow = true := fun g hg => hex g (by simp [hg])
    have hnd' : (fs.map MFile.basename).Nodup := (List.nodup_cons.mp hnd).2
    have hb0 : f0.basename ∉ fs.map MFile.basename := (List.nodup_cons.mp hnd).1
    simp only [auditFiles, hf0, if_true] at h
    rcases List.mem_cons.mp hf with hf | hf
    · subst hf
      cases hget : dictGet m f.basename with
      | some v =>
        rw [hget] at h
        by_cases heq : f.checksum == v
        · simp only [heq, if_true] at h
          rw [auditFiles_frame fs m mf evs hex' h f.basename hb0, hget]
          have : f.checksum = v := by simpa using heq
          rw [this]
        · simp only [heq, Bool.false_eq_true, if_false] at h
          cases haud : auditFiles fs (dictSet m f.basename f.checksum) with
          | error e => rw [haud] at h; simp at h
          | ok r =>
            rw [haud] at h
            simp only [Except.ok.injEq, Prod.mk.injEq] at h
            rw [← h.1]
            rw [auditFiles_frame fs _ r.1 r.2 hex' (by rw [haud]) f.basename hb0]
            exact dictGet_set_self m f.basename f.checksum
      | none =>
        rw [hget] at h
        cases haud : auditFiles fs (dictSet m f.basename f.checksum) with
        | error e => rw [haud] at h; simp at h
        | ok r =>
          rw [haud] at h
          simp only [Except.ok.injEq, Prod.mk.injEq] at h
          rw [← h.1]
          rw [auditFiles_frame fs _ r.1 r.2 hex' (by rw [haud]) f.basename hb0]
          exact dictGet_set_self m f.basename f.checksum
    · cases hget : dictGet m f0.basename with
      | some v =>
        rw [hget] at h
        by_cases heq : f0.checksum == v
        · simp only [heq, if_true] at h
          exact ih m mf evs hex' hnd' h f hf
        · simp only [heq, Bool.false_eq_true, if_false] at h
          cases haud : auditFiles fs (dictSet m f0.basename f0.checksum) with
          | error e => rw [haud] at h; simp at h
          | ok r =>
            rw [haud] at h
            simp only [Except.ok.injEq, Prod.mk.injEq] at h
            rw [← h.1]
            exact ih _ r.1 r.2 hex' hnd' (by rw [haud]) f hf
      | none =>
        rw [hget] at h
        cases haud : auditFiles fs (dictSet m f0.basename f0.checksum) with
        | error e => rw [haud] at h; simp at h
        | ok r =>
          rw [haud] at h
          simp only [Except.ok.injEq, Prod.mk.injEq] at h
          rw [← h.1]
          exact ih _ r.1 r.2 hex' hnd' (by rw [haud]) f hf

theorem auditFiles_mem (fs : List MFile) :
    ∀ m mf evs, (∀ f ∈ fs, f.isfileNow = true) →
      auditFiles fs m = Except.ok (mf, evs) →
      ∀ p ∈ mf, p ∈ m ∨ ∃ f ∈ fs, p = (f.basename, f.checksum) := by
  induction fs with
  | nil =>
    intro m mf evs _ h p hp
    simp only [auditFiles, Except.ok.injEq, Prod.mk.injEq] at h
    rw [← h.1] at hp
    exact Or.inl hp
  | cons f0 fs ih =>
    intro m mf evs hex h p hp
    have hf0 : f0.isfileNow = true := hex f0 (by simp)
    have hex' : ∀ g ∈ fs, g.isfileNow = true := fun g hg => hex g (by simp [hg])
    simp only [auditFiles, hf0, if_true] at h
    cases hget : dictGet m f0.basename with
    | some v =>
      rw [hget] at h
      by_cases heq : f0.checksum == v
      · simp only [heq, if_true] at h
        rcases ih m mf evs hex' h p hp with hm | ⟨f, hf, he⟩
        · exact Or.inl hm
        · exact Or.inr ⟨f, by simp [hf], he⟩
      · simp only [heq, Bool.false_eq_true, if_false] at h
        cases haud : auditFiles fs (dictSet m f0.basename f0.checksum) with
        | error e => rw [haud] at h; simp at h
        | ok r =>
          rw [haud] at h
          simp only [Except.ok.injEq, Prod.mk.injEq] at h
          rw [← h.1] at hp
          rcases ih _ r.1 r.2 hex' (by rw [haud]) p hp with hm | ⟨f, hf, he⟩
          · rcases mem_dictSet _ _ _ p hm with hm2 | hm2
            · exact Or.inl hm2
            · exact Or.inr ⟨f0, by simp, hm2⟩
          · exact Or.inr ⟨f, by simp [hf], he⟩
    | none =>
      rw [hget] at h
      cases haud : auditFiles fs (dictSet m f0.basename f0.checksum) with
      | error e => rw [haud] at h; simp at h
      | ok r =>
        rw [haud] at h
        simp only [Except.ok.injEq, Prod.mk.injEq] at h
        rw [← h.1] at hp
        rcases ih _ r.1 r.2 hex' (by rw [haud]) p hp with hm | ⟨f, hf, he⟩
        · rcases mem_dictSet _ _ _ p hm with hm2 | hm2
          · exact Or.inl hm2
          · exact Or.inr ⟨f0, by simp, hm2⟩
        · exact Or.inr ⟨f, by simp [hf], he⟩

theorem auditFiles_nodupKeys (fs : List MFile) :
    ∀ m mf evs, (∀ f ∈ fs, f.isfileNow = true) →
      auditFiles fs m = Except.ok (mf, evs) →
      (keysOf m).Nodup → (keysOf mf).Nodup := by
  induction fs with
  | nil =>
    intro m mf evs _ h hm
    simp only [auditFiles, Except.ok.injEq, Prod.mk.injEq] at h
    rw [← h.1]
    exact hm
  | cons f0 fs ih =>
    intro m mf evs hex h hm
    have hf0 : f0.isfileNow = true := hex f0 (by simp)
    have hex' : ∀ g ∈ fs, g.isfileNow = true := fun g hg => hex g (by simp [hg])
    simp only [auditFiles, hf0, if_true] at h
    cases hget : dictGet m f0.basename with
    | some v =>
      rw [hget] at h
      by_cases heq : f0.checksum == v
      · simp only [heq, if_true] at h
        exact ih m mf evs hex' h hm
      · simp only [heq, Bool.false_eq_true, if_false] at h
        cases haud : auditFiles fs (dictSet m f0.basename f0.checksum) with
        | error e => rw [haud] at h; simp at h
        | ok r =>
          rw [haud] at h
          simp only [Except.ok.injEq, Prod.mk.injEq] at h
          rw [← h.1]
          exact ih _ r.1 r.2 hex' (by rw [haud])
            (nodup_keysOf_dictSet m f0.basename f0.checksum hm)
    | none =>
      rw [hget] at h
      cases haud : auditFiles fs (dictSet m f0.basename f0.checksum) with
      | error e => rw [haud] at h; simp at h
      | ok r =>
        rw [haud] at h
        simp only [Except.ok.injEq, Prod.mk.injEq] at h
        rw [← h.1]
        exact ih _ r.1 r.2 hex' (by rw [haud])
          (nodup_keysOf_dictSet m f0.basename f0.checksum hm)

theorem initFiles_frame (fs : List MFile) :
    ∀ m k, k ∉ fs.map MFile.basename →
      dictGet (initFiles fs m).1 k = dictGet m k := by
  induction fs with
  | nil => intro m k _; rfl
  | cons f fs ih =>
    intro m k hk
    have hkf : k ≠ f.basename := fun he => hk (by simp [he])
    have hk' : k ∉ fs.map MFile.basename := fun hh => hk (by simp [hh])
    by_cases hf : f.isfileNow
    · simp only [initFiles, hf, if_true]
      rw [ih _ k hk']
      exact dictGet_set_ne m f.basename k f.checksum hkf
    · simp only [initFiles, hf, Bool.false_eq_true, if_false]
      exact ih m k hk'

theorem initFiles_values (fs : List MFile) :
    ∀ m, (∀ f ∈ fs, f.isfileNow = true) → (fs.map MFile.basename).Nodup →
      ∀ f ∈ fs, dictGet (initFiles fs m).1 f.basename = some f.checksum := by
  induction fs with
  | nil => intro m _ _ f hf; simp at hf
  | cons f0 fs ih =>
    intro m hex hnd f hf
    have hf0 : f0.isfileNow = true := hex f0 (by simp)
    have hex' : ∀ g ∈ fs, g.isfileNow = true := fun g hg => hex g (by simp [hg])
    have hnd' : (fs.map MFile.basename).Nodup := (List.nodup_cons.mp hnd).2
    have hb0 : f0.basename ∉ fs.map MFile.basename := (List.nodup_cons.mp hnd).1
    simp only [initFiles, hf0, if_true]
    rcases List.mem_cons.mp hf with hf | hf
    · subst hf
      rw [initFiles_frame fs _ f.basename hb0]
      exact dictGet_set_self m f.basename f.checksum
    · exact ih _ hex' hnd' f hf

theorem initFiles_mem (fs : List MFile) :
    ∀ m p, p ∈ (initFiles fs m).1 →
      p ∈ m ∨ ∃ f ∈ fs, p = (f.basename, f.checksum) := by
  induction fs with
  | nil => intro m p hp; exact Or.inl hp
  | cons f0 fs ih =>
    intro m p hp
    by_cases hf : f0.isfileNow
    · simp only [initFiles, hf, if_true] at hp
      rcases ih _ p hp with hm | ⟨f, hfm, he⟩
      · rcases mem_dictSet _ _ _ p hm with hm2 | hm2
        · exact Or.inl hm2
        · exact Or.inr ⟨f0, by simp, hm2⟩
      · exact Or.inr ⟨f, by simp [hfm], he⟩
    · simp only [initFiles, hf, Bool.false_eq_true, if_false] at hp
      rcases ih _ p hp with hm | ⟨f, hfm, he⟩
      · exact Or.inl hm
      · exact Or.inr ⟨f, by simp [hfm], he⟩

theorem initFiles_nodupKeys (fs : List MFile) :
    ∀ m, (keysOf m).Nodup → (keysOf (initFiles fs m).1).Nodup := by
  induction fs with
  | nil => intro m hm; exact hm
  | cons f0 fs ih =>
    intro m hm
    by_cases hf : f0.isfileNow
    · simp only [initFiles, hf, if_true]
      exact ih _ (nodup_keysOf_dictSet m f0.basename f0.checksum hm)
    · simp only [initFiles, hf, Bool.false_eq_true, if_false]
      exact ih _ hm

/-!
## Helper lemmas: whole-directory reconciliation
-/

theorem keysOf_liftMap (m : List (String × String)) :
    keysOf (liftMap m) = keysOf m := by
  simp [keysOf, liftMap]

theorem processDir_written_inv (d : MDir) (o : DirOutcome) (L : List String)
    (h : processDir false d = Except.ok o) (hw : o.written = some L) :
    d.writable = true ∧
      reconcileMap false d = Except.ok (o.finalMap, o.events, false) ∧
      renderManifest o.finalMap = Except.ok L := by
  cases hrec : reconcileMap false d with
  | error e => simp only [processDir, hrec] at h; simp at h
  | ok r =>
    obtain ⟨mf, evs, skipped⟩ := r
    simp only [processDir, hrec] at h
    cases skipped with
    | true =>
      simp only [if_true] at h
      simp only [Except.ok.injEq] at h
      rw [← h] at hw
      simp at hw
    | false =>
      simp only [Bool.false_eq_true, if_false] at h
      cases hwr : d.writable with
      | false =>
        rw [hwr] at h
        simp only [Bool.false_eq_true, if_false, Except.ok.injEq] at h
        rw [← h] at hw
        simp at hw
      | true =>
        rw [hwr] at h
        simp only [if_true] at h
        cases hren : renderManifest mf with
        | error e => rw [hren] at h; simp at h
        | ok lines =>
          rw [hren] at h
          simp only [Except.ok.injEq] at h
          subst h
          simp only at hw
          have hlL : lines = L := by simpa using hw
          subst hlL
          refine ⟨rfl, ?_, hren⟩
          rfl

theorem reconcileMap_values (d : MDir) (mf : List (String × Option String))
    (evs : List AEvent) (sk : Bool)
    (hex : ∀ f ∈ d.files, f.isfileNow = true)
    (hnd : (d.files.map MFile.basename).Nodup)
    (h : reconcileMap false d = Except.ok (mf, evs, sk)) :
    ∀ f ∈ d.files, dictGet mf f.basename = some f.checksum := by
  unfold reconcileMap at h
  cases hml : d.manifestLines with
  | some lines =>
    simp only [hml] at h
    cases hpar : parseManifestLines lines with
    | none => simp only [hpar] at h; simp at h
    | some m0 =>
      simp only [hpar] at h
      cases haud : auditFiles d.files (m0.map (fun p => (p.1, some p.2))) with
      | error e => simp only [haud] at h; simp at h
      | ok r =>
        simp only [haud] at h
        simp only [Except.ok.injEq, Prod.mk.injEq] at h
        rw [← h.1]
        exact auditFiles_values d.files _ r.1 r.2 hex hnd (by rw [haud])
  | none =>
    simp only [hml] at h
    simp only [Bool.false_eq_true, if_false] at h
    simp only [Except.ok.injEq, Prod.mk.injEq] at h
    rw [← h.1]
    exact initFiles_values d.files [] hex hnd

theorem reconcileMap_entries (d : MDir) (mf : List (String × Option String))
    (evs : List AEvent) (sk : Bool)
    (hex : ∀ f ∈ d.files, f.isfileNow = true)
    (hcl : ∀ f ∈ d.files, cleanTok f.basename = true ∧
      ∀ c, f.checksum = some c → cleanTok c = true)
    (h : reconcileMap false d = Except.ok (mf, evs, sk)) :
    (keysOf mf).Nodup ∧
      ∀ p ∈ mf, cleanTok p.1 = true ∧
        ∀ c, p.2 = some c → cleanTok c = true := by
  unfold reconcileMap at h
  cases hml : d.manifestLines with
  | some lines =>
    simp only [hml] at h
    cases hpar : parseManifestLines lines with
    | none => simp only [hpar] at h; simp at h
    | some m0 =>
      simp only [hpar] at h
      cases haud : auditFiles d.files (m0.map (fun p => (p.1, some p.2))) with
      | error e => simp only [haud] at h; simp at h
      | ok r =>
        simp only [haud] at h
        simp only [Except.ok.injEq, Prod.mk.injEq] at h
        have hm0nd : (keysOf m0).Nodup :=
          parseLinesGo_nodup lines [] m0 (by simp [keysOf]) hpar
        have hm0cl : cleanEntries m0 :=
          parseLinesGo_clean lines [] m0 (by intro p hp; simp at hp) hpar
        have hliftnd : (keysOf (m0.map (fun p => (p.1, some p.2)))).Nodup := by
          have : keysOf (m0.map (fun p => (p.1, some p.2))) = keysOf m0 := by
            simp [keysOf]
          rw [this]
          exact hm0nd
        constructor
        · rw [← h.1]
          exact auditFiles_nodupKeys d.files _ r.1 r.2 hex (by rw [haud]) hliftnd
        · intro p hp
          rw [← h.1] at hp
          rcases auditFiles_mem d.files _ r.1 r.2 hex (by rw [haud]) p hp with
            hm | ⟨f, hf, he⟩
          · simp only [List.mem_map] at hm
            rcases hm with ⟨q, hq, hqe⟩
            have := hm0cl q hq
            rw [← hqe]
            exact ⟨this.1, fun c hc => by
              simp only [Option.some.injEq] at hc
              rw [← hc]
              exact this.2⟩
          · rw [he]
            have := hcl f hf
            exact ⟨this.1, fun c hc => this.2 c hc⟩
  | none =>
    simp only [hml] at h
    simp only [Bool.false_eq_true, if_false] at h
    simp only [Except.ok.injEq, Prod.mk.injEq] at h
    constructor
    · rw [← h.1]
      exact initFiles_nodupKeys d.files [] (by simp [keysOf])
    · intro p hp
      rw [← h.1] at hp
      rcases initFiles_mem d.files [] p hp with hm | ⟨f, hf, he⟩
      · simp at hm
      · rw [he]
        have := hcl f hf
        exact ⟨this.1, fun c hc => this.2 c hc⟩

/-!
## Helper lemma: the exclude rule loop
-/

theorem excludeGo_eq (mode : RMode) (rs : List CompiledRegex) :
    ∀ (isAbsDir : Bool) (p : String),
      excludeGo mode rs isAbsDir p =
        (match rs.find? (fun r => ruleApplies r isAbsDir p) with
         | some _ => mode == RMode.excl
         | none => mode == RMode.incl) := by
  induction rs with
  | nil => intro a p; rfl
  | cons r rest ih =>
    intro a p
    cases hdir : regexDirOnly r <;> cases ha : a <;>
      cases hs : reSearch r.elems p <;>
        simp [excludeGo, List.find?_cons, ruleApplies, hdir, ha, hs, ih]

/-!
## Claim theorems
-/

/-- Claim C2: the exclusion decision strips the configured base prefix and
tests rules in order; the first matching rule decides by mode (exclude mode:
match means excluded; include mode: match means included), and with no match
exclude mode includes while include mode excludes — in particular an
include-mode rule set with zero patterns excludes every path. -/
theorem c2_exclude_first_match_contract :
    (∀ (mode : RMode) (rs : List CompiledRegex) (isAbsDir : Bool)
        (base : Option String) (path : String),
        excludeFn mode rs isAbsDir base path
          = excludeSpecFn mode rs isAbsDir base path) ∧
    ∀ (isAbsDir : Bool) (base : Option String) (path : String),
      excludeFn RMode.incl [] isAbsDir base path = true := by
  constructor
  · intro mode rs a b p
    cases b <;> exact excludeGo_eq mode rs a _
  · intro a b p
    cases b <;> rfl

/-- Claim C3: the translation replaces each unescaped `?` with `[^/]?`,
a regex that matches zero or one non-separator characters rather than
exactly one, so the compiled `build?` matches `buildX` and also matches
`build` — the code diverges from rsync's documented `?` semantics (and from
its own comment "any single character except slash"). -/
theorem c3_qmark_matches_zero_chars :
    generateRsyncRegex "build?" = some "build[^/]?$" ∧
    (compilePattern "build?").map
        (fun r => (reSearch r.elems "buildX", reSearch r.elems "build"))
      = some (true, true) :=
  ⟨rfl, rfl⟩

/-- Claim C4: for the fixed example patterns the compiled matcher disagrees
with rsync because `.` is left unescaped in the generated regex: `*.txt`
excludes `a_txt`, `build?` excludes `build`, and `.git/**` excludes
`Xgit/f`, none of which rsync would match; the two agreeing rows
(`a.txt` for `*.txt`; directory `x/cache/` for `**/cache/`, which also does
not match a non-directory) are included for contrast. -/
theorem c4_translation_divergences :
    (compilePattern "*.txt").map
        (fun r => excludeFn RMode.excl [r] false none "a.txt") = some true ∧
    (compilePattern "*.txt").map
        (fun r => excludeFn RMode.excl [r] false none "a_txt") = some true ∧
    (compilePattern "build?").map
        (fun r => excludeFn RMode.excl [r] false none "build") = some true ∧
    (compilePattern ".git/**").map
        (fun r => excludeFn RMode.excl [r] false none "Xgit/f") = some true ∧
    (compilePattern "**/cache/").map
        (fun r => excludeFn RMode.excl [r] true none "x/cache/") = some true ∧
    (compilePattern "**/cache/").map
        (fun r => excludeFn RMode.excl [r] false none "x/cache/") = some false :=
  ⟨rfl, rfl, rfl, rfl, rfl, rfl⟩

/-- Claim C6: when a dequeued directory no longer exists, the worker body
executes `return None`, ending the whole worker instead of continuing with
the next queue item: with a vanished directory ahead of a live one the
worker processes nothing further and never reaches the sentinel.  Also, a
file that vanished and whose basename is not a manifest key makes
`del checksums[file_name]` raise an uncaught `KeyError`. -/
theorem c6_worker_early_return :
    analyzeWorker false [AQItem.dir c6dM, AQItem.dir c6dL, AQItem.done]
      = Except.ok ([], [AEvent.warnDirMissing "/gone"],
          WorkerExit.earlyReturn "/gone") ∧
    processDir false c6dK = Except.error (PyError.keyError "gone") :=
  ⟨rfl, rfl⟩

/-- Claim C7: in read-only mode no manifest is ever written, a dequeued
directory lacking a manifest is skipped outright, and `main` never produces
a Directory record for a directory without a manifest file. -/
theorem c7_read_only_frame :
    (∀ d : MDir, writtenOf (processDir true d) = none) ∧
    (∀ d : MDir, d.manifestLines = none →
      processDir true d
        = Except.ok ⟨[AEvent.warnReadOnlySkip d.path], [], none⟩) ∧
    ∀ (k : ℤ) (root : String) (w : WalkDir),
      dirProduced k true root w = true → w.hasManifest = true := by
  refine ⟨?_, ?_, ?_⟩
  · intro d
    cases hrec : reconcileMap true d with
    | error e => simp [writtenOf, processDir, hrec]
    | ok r =>
      obtain ⟨mf, evs, skipped⟩ := r
      cases skipped <;> simp [writtenOf, processDir, hrec]
  · intro d hml
    simp [processDir, reconcileMap, hml]
  · intro k root w h
    cases hm : w.hasManifest with
    | true => rfl
    | false => simp [dirProduced, hm] at h

/-- Witness for C7 at concrete inputs. -/
theorem c7_read_only_frame_w :
    processDir true c7d0
        = Except.ok ⟨[AEvent.warnReadOnlySkip "/p"], [], none⟩ ∧
    c7w0.hasManifest = true ∧
    writtenOf (processDir true c7d0) = none :=
  ⟨c7_read_only_frame.2.1 c7d0 rfl,
   c7_read_only_frame.2.2 1 "/r" c7w0 (by rfl),
   c7_read_only_frame.1 c7d0⟩

/-- Counterexample to C1 as stated: the first run completes and rewrites
the manifest (keeping the stale `ghost` entry), the tree is left unchanged,
yet the immediately following run still emits a stale-entry warning — not
zero warnings.  (The entry set it writes is unchanged.) -/
theorem c1_second_run_still_warns :
    processDir false c1d1
        = Except.ok ⟨[AEvent.warnStale "ghost", AEvent.infoNew "a"],
            [("ghost", some "x"), ("a", some "ca")], some c1L⟩ ∧
    processDir false c1d2
        = Except.ok ⟨[AEvent.warnStale "ghost"],
            [("ghost", some "x"), ("a", some "ca")], some c1L⟩ ∧
    (AEvent.warnStale "ghost").isWarning = true :=
  ⟨rfl, rfl, rfl⟩

/-- Counterexample to C5 as stated: a file whose checksum stayed unset is
not excluded from the manifest update — its basename is entered into the
in-memory dict with value `None`, and writing the manifest then raises an
uncaught `TypeError` instead of skipping the file. -/
theorem c5_unset_checksum_not_excluded :
    reconcileMap false c5d
        = Except.ok ([("b", none)], [AEvent.infoNew "b"], false) ∧
    processDir false c5d = Except.error PyError.typeError :=
  ⟨rfl, rfl⟩

/-- Counterexample to C8 as stated: with audit root `/` the separator-count
depth measure undercounts by one, so for max-depth 1 the directory `a/b`
(two component levels below the root) still gets a Directory record. -/
theorem c8_root_slash_escapes_depth_limit :
    dirProduced 1 false "/" c8deep = true ∧
    c8deep.comps.length = 2 ∧ ¬((2 : ℤ) ≤ 1) :=
  ⟨rfl, rfl, by decide⟩

/-- Counterexample to C9 as stated: the stale check compares manifest keys
against `iglob('*')`, which never lists hidden entries, so a manifest entry
for the hidden file `.foo` is warned as stale even though that file is on
disk. -/
theorem c9_hidden_file_warned_stale :
    processDir false c9d
        = Except.ok ⟨[AEvent.warnStale ".foo"], [(".foo", some "c")],
            some ["c  .foo\n"]⟩ ∧
    c9d.entries.any (fun e => e.name == ".foo" && e.isFile) = true :=
  ⟨rfl, rfl⟩

/-- Claim C5 (amended): any exception during digest computation other than
an interrupt is caught, the checksum reset to unset, and the worker
continues (interrupts are re-raised); but a file whose checksum is unset
after Phase 1 is NOT excluded from the manifest update — its basename is
entered into the in-memory manifest dict with the unset value. -/
theorem c5_error_handling :
    (∀ (f : QFile) (rest : List CQItem) (msg : String),
      f.isfileNow = true → f.readable = true → f.hash = HOutcome.hashErr msg →
      calcWorker (CQItem.file f :: rest)
        = (calcWorker rest).map
            (fun r => ((f.name, (none : Option String)) :: r.1,
              CEvent.errSuppressed f.name :: r.2.1, r.2.2))) ∧
    (∀ (f : QFile) (rest : List CQItem),
      f.isfileNow = true → f.readable = true → f.hash = HOutcome.interrupted →
      calcWorker (CQItem.file f :: rest) = Except.error ()) ∧
    ∀ (d : MDir) (f : MFile) (mf : List (String × Option String))
        (evs : List AEvent) (sk : Bool),
      f ∈ d.files → f.checksum = none →
      (∀ g ∈ d.files, g.isfileNow = true) →
      (d.files.map MFile.basename).Nodup →
      reconcileMap false d = Except.ok (mf, evs, sk) →
      dictGet mf f.basename = some none := by
  refine ⟨?_, ?_, ?_⟩
  · intro f rest msg hf hr hh
    have hc : calcOne f = Except.ok (none, [CEvent.errSuppressed f.name]) := by
      simp [calcOne, hf, hr, hh]
    simp only [calcWorker, hc]
    cases hcw : calcWorker rest with
    | error e => rfl
    | ok r => rfl
  · intro f rest hf hr hh
    have hc : calcOne f = Except.error () := by
      simp [calcOne, hf, hr, hh]
    simp only [calcWorker, hc]
  · intro d f mf evs sk hf hcs hex hnd hrec
    have h := reconcileMap_values d mf evs sk hex hnd hrec f hf
    rw [hcs] at h
    exact h

/-- Witness for the amended C5 at concrete inputs. -/
theorem c5_error_handling_w :
    calcWorker [CQItem.file c5fErr, CQItem.doneC]
        = (calcWorker [CQItem.doneC]).map
            (fun r => (("f", (none : Option String)) :: r.1,
              CEvent.errSuppressed "f" :: r.2.1, r.2.2)) ∧
    calcWorker [CQItem.file c5fInt] = Except.error () ∧
    dictGet [("b", (none : Option String))] "b" = some none :=
  ⟨c5_error_handling.1 c5fErr [CQItem.doneC] "boom" rfl rfl rfl,
   c5_error_handling.2.1 c5fInt [] rfl rfl rfl,
   c5_error_handling.2.2 c5dw ⟨"b", none, true⟩ [("b", none)] [] false
     (by decide) rfl (by decide) (by decide) rfl⟩

/-- Claim C9 (amended): a stale-entry warning is logged for key `k` exactly
when `k` is a manifest key and no non-hidden on-disk entry (file or
directory) bears that name — a hidden file on disk is still warned about,
and a same-named directory suppresses the warning; nothing is ever removed
from disk (the reconciler's only effects are log events and the manifest
write). -/
theorem c9_stale_warning_iff :
    ∀ (m : List (String × String)) (entries : List DirEntry) (k : String),
      AEvent.warnStale k ∈ staleEvents m entries ↔
        (k ∈ keysOf m ∧
          ∀ e ∈ entries, hiddenName e.name = true ∨ e.name ≠ k) := by
  intro m entries k
  have hmem : ∀ s : String, (globStar entries).contains s = true ↔
      ∃ e ∈ entries, hiddenName e.name = false ∧ e.name = s := by
    intro s
    rw [List.elem_iff]
    unfold globStar
    constructor
    · intro h
      rcases List.mem_map.mp h with ⟨e, he, hname⟩
      rcases List.mem_filter.mp he with ⟨he2, hh⟩
      exact ⟨e, he2, by simpa using hh, hname⟩
    · rintro ⟨e, he, hh, hname⟩
      refine List.mem_map.mpr ⟨e, List.mem_filter.mpr ⟨he, by simpa using hh⟩,
        hname⟩
  unfold staleEvents
  rw [List.mem_filterMap]
  constructor
  · rintro ⟨p, hp, hpe⟩
    cases hc : (globStar entries).contains p.1 with
    | true => rw [if_pos hc] at hpe; simp at hpe
    | false =>
      rw [if_neg (show ¬((globStar entries).contains p.1 = true) by
        rw [hc]; simp)] at hpe
      simp only [Option.some.injEq, AEvent.warnStale.injEq] at hpe
      subst hpe
      refine ⟨List.mem_map_of_mem Prod.fst hp, ?_⟩
      intro e he
      cases hh : hiddenName e.name with
      | true => exact Or.inl rfl
      | false =>
        refine Or.inr fun hne => ?_
        have : (globStar entries).contains p.1 = true :=
          (hmem p.1).mpr ⟨e, he, hh, hne⟩
        rw [this] at hc
        exact absurd hc (by simp)
  · rintro ⟨hk, hall⟩
    rcases List.mem_map.mp hk with ⟨p, hp, hpk⟩
    refine ⟨p, hp, ?_⟩
    have hc : ¬((globStar entries).contains p.1 = true) := by
      intro hc
      rcases (hmem p.1).mp hc with ⟨e, he, hh, hname⟩
      rcases hall e he with h | h
      · rw [hh] at h; exact absurd h (by simp)
      · exact h (by rw [hname, hpk])
    rw [if_neg hc, hpk]

/-- Helper for C10: on a manifest whose every line has at least one
whitespace token, parsing succeeds and every resulting entry comes from
some line as (last token, first token). -/
theorem parseLinesGo_total (lines : List String) :
    ∀ acc, (∀ l ∈ lines, pySplit (pyStrip l) ≠ []) →
      ∃ m, parseLinesGo lines acc = some m ∧
        ∀ p ∈ m, p ∈ acc ∨ ∃ l ∈ lines, ∃ t ts,
          pySplit (pyStrip l) = t :: ts ∧ p.2 = t ∧ p.1 = lastTok (t :: ts) := by
  induction lines with
  | nil =>
    intro acc _
    exact ⟨acc, rfl, fun p hp => Or.inl hp⟩
  | cons l ls ih =>
    intro acc hne
    cases hts : pySplit (pyStrip l) with
    | nil => exact absurd hts (hne l (by simp))
    | cons t ts =>
      rcases ih (dictSet acc (lastTok (t :: ts)) t)
          (fun x hx => hne x (by simp [hx])) with ⟨m, hm, hprop⟩
      refine ⟨m, ?_, ?_⟩
      · simp only [parseLinesGo, hts]
        exact hm
      · intro p hp
        rcases hprop p hp with hacc | ⟨l2, hl2, t2, ts2, h2⟩
        · rcases mem_dictSet _ _ _ p hacc with hacc2 | hacc2
          · exact Or.inl hacc2
          · exact Or.inr ⟨l, by simp, t, ts, hts, by rw [hacc2], by rw [hacc2]⟩
        · exact Or.inr ⟨l2, by simp [hl2], t2, ts2, h2⟩

/-- Claim C10: manifest parsing is total exactly on manifests without
token-free lines — every line's last token maps to its first token; any
whitespace-only line makes the unguarded `line[-1]` raise an `IndexError`
that the reconciliation worker does not handle, crashing the worker. -/
theorem c10_manifest_parse_totality :
    (∀ lines : List String, (∀ l ∈ lines, pySplit (pyStrip l) ≠ []) →
      ∃ m, parseManifestLines lines = some m ∧
        ∀ p ∈ m, ∃ l ∈ lines, ∃ t ts,
          pySplit (pyStrip l) = t :: ts ∧ p.2 = t ∧ p.1 = lastTok (t :: ts)) ∧
    (∀ (lines : List String) (l : String), l ∈ lines →
      pySplit (pyStrip l) = [] → parseManifestLines lines = none) ∧
    ∀ (ro : Bool) (d : MDir) (rest : List AQItem) (lines : List String),
      d.dirExists = true → d.manifestLines = some lines →
      (∃ l ∈ lines, pySplit (pyStrip l) = []) →
      analyzeWorker ro (AQItem.dir d :: rest)
        = Except.error PyError.indexError := by
  refine ⟨?_, ?_, ?_⟩
  · intro lines hne
    rcases parseLinesGo_total lines [] hne with ⟨m, hm, hprop⟩
    refine ⟨m, hm, fun p hp => ?_⟩
    rcases hprop p hp with hacc | h
    · simp at hacc
    · exact h
  · intro lines l hl hblank
    exact parseLinesGo_blank lines [] l hl hblank
  · intro ro d rest lines hex hml hblank
    rcases hblank with ⟨l, hl, hbl⟩
    have hpar : parseManifestLines lines = none :=
      parseLinesGo_blank lines [] l hl hbl
    have hrec : reconcileMap ro d = Except.error PyError.indexError := by
      unfold reconcileMap
      simp only [hml, hpar]
    have hpd : processDir ro d = Except.error PyError.indexError := by
      simp only [processDir, hrec]
    simp only [analyzeWorker, hex, if_true, hpd]

/-- Witness for C10 at concrete manifests. -/
theorem c10_manifest_parse_totality_w :
    (∃ m, parseManifestLines ["ab  cd"] = some m ∧
      ∀ p ∈ m, ∃ l ∈ ["ab  cd"], ∃ t ts,
        pySplit (pyStrip l) = t :: ts ∧ p.2 = t ∧ p.1 = lastTok (t :: ts)) ∧
    parseManifestLines ["ab  cd", " "] = none ∧
    analyzeWorker false [AQItem.dir c10d]
      = Except.error PyError.indexError :=
  ⟨c10_manifest_parse_totality.1 ["ab  cd"] (by decide),
   c10_manifest_parse_totality.2.1 ["ab  cd", " "] " " (by decide) (by decide),
   c10_manifest_parse_totality.2.2 false c10d [] ["ab  cd", " "] rfl rfl
     ⟨" ", by decide, by decide⟩⟩

/-!
## Helper lemmas: path depth counting
-/

theorem getLastD_irrel {α : Type} (y : List α) (h : y ≠ []) (d e : α) :
    y.getLastD d = y.getLastD e := by
  cases y with
  | nil => exact absurd rfl h
  | cons a l => rw [List.getLastD_cons, List.getLastD_cons]

theorem getLastD_append_ne {α : Type} (x y : List α) (h : y ≠ []) :
    ∀ d, (x ++ y).getLastD d = y.getLastD d := by
  induction x with
  | nil => intro d; rfl
  | cons a x ih =>
    intro d
    rw [List.cons_append, List.getLastD_cons, ih a, getLastD_irrel y h a d]

theorem getLastD_mem {α : Type} (l : List α) :
    ∀ d, l ≠ [] → l.getLastD d ∈ l := by
  induction l with
  | nil => intro d h; exact absurd rfl h
  | cons a t ih =>
    intro d _
    cases ht : t with
    | nil => subst ht; simp [List.getLastD_cons]
    | cons b u =>
      subst ht
      rw [List.getLastD_cons]
      exact List.mem_cons_of_mem a (ih a (by simp))

theorem lastIsSep_append (a c : String) (hc : c.toList ≠ [])
    (hcs : '/' ∉ c.toList) : lastIsSep (a ++ "/" ++ c) = false := by
  unfold lastIsSep
  rw [toList_strAppend, toList_strAppend]
  rw [List.append_assoc]
  rw [getLastD_append_ne _ (("/" : String).toList ++ c.toList)
    (by simp [show ("/" : String).toList = ['/'] from rfl]) ' ']
  rw [getLastD_append_ne _ c.toList hc ' ']
  have hmem := getLastD_mem c.toList ' ' hc
  simp only [beq_eq_false_iff_ne, ne_eq]
  intro he
  rw [he] at hmem
  exact hcs hmem

theorem sepCount_join (a c : String) (hcs : '/' ∉ c.toList) :
    sepCount (a ++ "/" ++ c) = sepCount a + 1 := by
  unfold sepCount
  rw [toList_strAppend, toList_strAppend]
  rw [List.count_append, List.count_append]
  have h1 : ("/" : String).toList.count '/' = 1 := rfl
  have h2 : c.toList.count '/' = 0 := List.count_eq_zero.mpr hcs
  rw [h1, h2]

theorem walkPath_sepCount (comps : List String) :
    ∀ root : String, lastIsSep root = false →
      (∀ c ∈ comps, c.toList ≠ [] ∧ '/' ∉ c.toList) →
      sepCount (walkPath root comps) = sepCount root + comps.length ∧
        lastIsSep (walkPath root comps) = false := by
  induction comps with
  | nil =>
    intro root h _
    exact ⟨by simp [walkPath], h⟩
  | cons c cs ih =>
    intro root hroot hcl
    have hc := hcl c (by simp)
    have hpj : pjoin root c = root ++ "/" ++ c := by
      simp [pjoin, hroot]
    have hw : walkPath root (c :: cs) = walkPath (root ++ "/" ++ c) cs := by
      simp [walkPath, hpj]
    have hlast : lastIsSep (root ++ "/" ++ c) = false :=
      lastIsSep_append root c hc.1 hc.2
    rw [hw]
    rcases ih (root ++ "/" ++ c) hlast (fun x hx => hcl x (by simp [hx])) with
      ⟨h1, h2⟩
    refine ⟨?_, h2⟩
    rw [h1, sepCount_join root c hc.2]
    simp only [List.length_cons]
    omega

/-- Claim C8 (amended): for every audit root whose absolute normalized path
does not end in a path separator (every root except the filesystem root
`/`), max-depth `k ≥ 1` guarantees that no Directory record is produced for
a directory more than `k` component levels below the root.  (At root `/`
the separator-count measure undercounts by one — see the counterexample.) -/
theorem c8_depth_limit (k : ℤ) (ro : Bool) (root : String) (w : WalkDir)
    (hroot : lastIsSep root = false)
    (hcomps : ∀ c ∈ w.comps, c.toList ≠ [] ∧ '/' ∉ c.toList)
    (hk : 1 ≤ k) (hdeep : (w.comps.length : ℤ) > k) :
    dirProduced k ro root w = false := by
  have hsk : depthSkips k root (walkPath root w.comps) = true := by
    rcases walkPath_sepCount w.comps root hroot hcomps with ⟨h1, _⟩
    unfold depthSkips maxDepthAdj
    rw [if_pos (by omega : k > 0)]
    simp only [h1, Bool.and_eq_true, decide_eq_true_eq]
    push_cast
    constructor
    · omega
    · have : (0 : ℤ) ≤ (sepCount root : ℤ) := Int.natCast_nonneg _
      omega
  unfold dirProduced
  rw [hsk]
  simp

/-- Witness for the amended C8 at a concrete root and directory. -/
theorem c8_depth_limit_w :
    dirProduced 1 false "/a" ⟨["b", "c"], true, true, true⟩ = false :=
  c8_depth_limit 1 false "/a" ⟨["b", "c"], true, true, true⟩ rfl
    (by decide) (by decide) (by decide)

/-- Claim C1 (amended): after a completed audit run that wrote manifest
content `L` for a directory, an immediately subsequent run on the unchanged
directory rewrites exactly the same manifest content; it additionally emits
zero warnings provided every key of the written manifest names a non-hidden
on-disk entry (stale manifest entries are preserved across runs and hidden
files are invisible to the stale check, so either situation makes the second
run warn again — see the counterexample).  The cleanliness hypotheses say
basenames and checksums are nonempty and whitespace-free, which the
two-space manifest format requires to round-trip. -/
theorem c1_second_run_stable (d : MDir) (o1 : DirOutcome) (L : List String)
    (h1 : processDir false d = Except.ok o1)
    (hw : o1.written = some L)
    (hex : ∀ f ∈ d.files, f.isfileNow = true)
    (hcl : ∀ f ∈ d.files, cleanTok f.basename = true ∧
      f.checksum.all cleanTok = true)
    (hnd : (d.files.map MFile.basename).Nodup)
    (hstale : ∀ k ∈ keysOf o1.finalMap,
      (globStar d.entries).contains k = true) :
    processDir false { d with manifestLines := some L }
      = Except.ok ⟨[], o1.finalMap, some L⟩ := by
  obtain ⟨hwr, hrec, hren⟩ := processDir_written_inv d o1 L h1 hw
  have hcl' : ∀ f ∈ d.files, cleanTok f.basename = true ∧
      ∀ c, f.checksum = some c → cleanTok c = true := by
    intro f hf
    refine ⟨(hcl f hf).1, fun c hc => ?_⟩
    have h2 := (hcl f hf).2
    rw [hc] at h2
    simpa [Option.all] using h2
  have hvals := reconcileMap_values d o1.finalMap o1.events false hex hnd hrec
  have hent := reconcileMap_entries d o1.finalMap o1.events false hex hcl' hrec
  rcases renderManifest_ok_inv o1.finalMap L hren with ⟨mp, hmp, hL⟩
  have hclean : cleanEntries mp := by
    intro p hp
    have hmem : (p.1, some p.2) ∈ o1.finalMap := by
      rw [hmp]
      exact List.mem_map_of_mem _ hp
    have h2 := hent.2 _ hmem
    exact ⟨h2.1, h2.2 p.2 rfl⟩
  have hndk : (keysOf mp).Nodup := by
    have h2 := hent.1
    rw [hmp, keysOf_liftMap] at h2
    exact h2
  have hparse : parseManifestLines L = some mp := by
    rw [hL]
    exact parseLinesGo_renderPlain mp [] hclean (by simpa using hndk)
  have hlift : mp.map (fun p => (p.1, some p.2)) = o1.finalMap := by
    rw [hmp]
    rfl
  have hnoop : auditFiles d.files o1.finalMap
      = Except.ok (o1.finalMap, []) :=
    auditFiles_noop d.files o1.finalMap
      (fun f hf => ⟨hex f hf, hvals f hf⟩)
  have hstales : staleEvents mp d.entries = [] := by
    refine staleEvents_nil mp d.entries (fun k hk => hstale k ?_)
    rw [hmp, keysOf_liftMap]
    exact hk
  have hrec2 : reconcileMap false { d with manifestLines := some L }
      = Except.ok (o1.finalMap, [], false) := by
    simp only [reconcileMap]
    simp only [hparse]
    simp only [hlift]
    simp only [hnoop]
    rw [hstales]
    simp
  simp only [processDir, hrec2]
  simp only [Bool.false_eq_true, if_false]
  rw [show ({ d with manifestLines := some L } : MDir).writable = d.writable
    from rfl, hwr]
  simp only [if_true]
  simp only [hren]

/-- Witness for the amended C1 at a concrete clean directory. -/
theorem c1_second_run_stable_w :
    processDir false { c1w with manifestLines := some ["cb  b\n"] }
      = Except.ok ⟨[], [("b", some "cb")], some ["cb  b\n"]⟩ :=
  c1_second_run_stable c1w ⟨[], [("b", some "cb")], some ["cb  b\n"]⟩
    ["cb  b\n"] rfl rfl (by decide) (by decide) (by decide) (by decide)
